import Mathlib

/-
Verification of the expando template-expansion library.

The library expands variable references in template text.  A reference is
written as a dollar sign followed by a braced body holding a variable name
and, optionally after the first pipe character, a default value; two
consecutive dollar signs collapse to one literal dollar sign in the output.
Strings are modelled as lists of characters, byte indices as Nat, the
fallible parsers return Except values carrying the consumed width together
with the error kind, and the top-level Expand returns the pair of Go return
values: the optional result buffer and the optional syntax error.
-/

namespace Expando

/-- The five fixed parse-error kinds of the library. -/
inductive ErrKind where
  | invalidCharacter
  | invalidStartingCharacter
  | unterminated
  | emptyString
  | invalidEscape
deriving DecidableEq

/-- The structured syntax error returned by Expand: position of the failure,
a bounded preview of the offending text, and the underlying cause. -/
structure InvalidSyntaxErr where
  position : Nat
  value : List Char
  err : ErrKind
deriving DecidableEq

/-- A provider of environment variables: lookupEnv returns the value when the
name is bound and none otherwise, mirroring the (string, bool) pair of Go. -/
structure Environment where
  lookupEnv : List Char → Option (List Char)

/-- validNameFirstChar from the source: ASCII letter or underscore. -/
def validNameFirstChar (c : Char) : Bool :=
  ('a' ≤ c && c ≤ 'z') || ('A' ≤ c && c ≤ 'Z') || c == '_'

/-- validNameChar from the source: letter, underscore or ASCII digit. -/
def validNameChar (c : Char) : Bool :=
  validNameFirstChar c || ('0' ≤ c && c ≤ '9')

/-- The scanning loop of readVarName from index 1 on: full is the whole
input, i the current index, and the last argument the remaining suffix
full.drop i.  A closing brace or pipe ends the name; an invalid character
or the end of the input is an error carrying the bytes consumed so far. -/
def readVarNameAux (full : List Char) : Nat → List Char → Except (Nat × ErrKind) (List Char × Nat)
  | i, [] => .error (i, .unterminated)
  | i, c :: cs =>
    if c == '}' || c == '|' then .ok (full.take i, i + 1)
    else if !validNameChar c then .error (i, .invalidCharacter)
    else readVarNameAux full (i + 1) cs

/-- readVarName from the source: parses the variable name at the start of
data (the text immediately after the opening of a reference), returning the
name and the number of bytes read including the terminating delimiter. -/
def readVarName (data : List Char) : Except (Nat × ErrKind) (List Char × Nat) :=
  match data with
  | [] => .error (0, .unterminated)
  | c :: cs =>
    if c == '}' || c == '|' then .error (0, .emptyString)
    else if !validNameFirstChar c then .error (0, .invalidStartingCharacter)
    else readVarNameAux data 1 cs

/-- The first loop of readDefaultValue: scan for a terminator while no
escape character has been seen.  Returns the value and consumed width when
a closing brace arrives first (Sum.inl), the index of the first backslash
when one arrives first (Sum.inr), or unterminated at the end of input. -/
def readDefaultFastLoop (full : List Char) : Nat → List Char → Except (Nat × ErrKind) ((List Char × Nat) ⊕ Nat)
  | i, [] => .error (i, .unterminated)
  | i, c :: cs =>
    if c == '\\' then .ok (.inr i)
    else if c == '}' then .ok (.inl (full.take i, i + 1))
    else readDefaultFastLoop full (i + 1) cs

/-- The second loop of readDefaultValue: builds the un-escaped value in buf,
tracking whether the previous character was an unconsumed backslash. -/
def readDefaultSlowLoop : List Char → Bool → Nat → List Char → Except (Nat × ErrKind) (List Char × Nat)
  | _, _, i, [] => .error (i, .unterminated)
  | buf, escaped, i, c :: cs =>
    if c == '\\' then
      readDefaultSlowLoop (if escaped then buf ++ [c] else buf) (!escaped) (i + 1) cs
    else if c == '}' && !escaped then .ok (buf, i + 1)
    else if escaped && c != '}' then .error (i, .invalidEscape)
    else readDefaultSlowLoop (buf ++ [c]) false (i + 1) cs

/-- readDefaultValue from the source: data is the text immediately after the
pipe delimiter; returns the un-escaped default value and the number of bytes
read including the closing brace. -/
def readDefaultValue (data : List Char) : Except (Nat × ErrKind) (List Char × Nat) :=
  match readDefaultFastLoop data 0 data with
  | .error e => .error e
  | .ok (.inl r) => .ok r
  | .ok (.inr i) => readDefaultSlowLoop (data.take i) false i (data.drop i)

/-- varInfo from the source: name, un-escaped default value and consumed
width of the reference body starting right after the opening of a reference.
The source indexes data at nameLen - 1 to test which delimiter ended the
name; the embedding reads it with getD, and the in-range fact is proved
separately (see varInfoChecked). -/
def varInfo (data : List Char) : Except (Nat × ErrKind) (List Char × List Char × Nat) :=
  match readVarName data with
  | .error (w, e) => .error (w, e)
  | .ok (name, nameLen) =>
    if data.getD (nameLen - 1) ' ' == '}' then .ok (name, [], nameLen)
    else
      match readDefaultValue (data.drop nameLen) with
      | .error (w, e) => .error (nameLen + w, e)
      | .ok (dv, valLen) => .ok (name, dv, nameLen + valLen)

/-- The scanning loop of Expand.  i is the start of the unflushed literal
run, dollar the pending-dollar flag, j the scan position.  The fuel argument
only drives the recursion: it decreases by one per loop iteration while j
advances by at least one, so with the fuel Expand supplies the zero-fuel
branch is never reached; its value is chosen to agree with the loop-exit
result so that exhausted fuel and the end of the template coincide. -/
def expandLoop (tmpl : List Char) (env : Environment) :
    Nat → Nat → Bool → List Char → Nat → Option (List Char) × Option InvalidSyntaxErr
  | 0, i, _, buf, _ => (some (buf ++ tmpl.drop i), none)
  | fuel + 1, i, dollar, buf, j =>
    if h : j < tmpl.length then
      if tmpl[j] == '$' then
        if !dollar then expandLoop tmpl env fuel i true buf (j + 1)
        else expandLoop tmpl env fuel (j + 1) false (buf ++ (tmpl.drop i).take (j - i)) (j + 1)
      else if tmpl[j] == '{' then
        if !dollar then expandLoop tmpl env fuel i dollar buf (j + 1)
        else
          let buf2 := buf ++ (tmpl.drop i).take (j - 1 - i)
          match varInfo (tmpl.drop (j + 1)) with
          | .error (w, e) =>
            (none, some ⟨w + 2, (tmpl.drop (j - 1)).take (min (j + w + 5) tmpl.length - (j - 1)), e⟩)
          | .ok (name, defaultValue, w) =>
            let buf3 := match env.lookupEnv name with
              | some val => buf2 ++ val
              | none => buf2 ++ defaultValue
            expandLoop tmpl env fuel (j + w + 1) false buf3 (j + w + 1)
      else expandLoop tmpl env fuel i false buf (j + 1)
    else (some (buf ++ tmpl.drop i), none)

/-- Expand from the source: replaces variable references in tmpl using env,
appending to buf; two consecutive dollar signs yield one literal dollar.
Returns the Go pair of result buffer and error: exactly one is present. -/
def Expand (tmpl : List Char) (env : Environment) (buf : List Char) :
    Option (List Char) × Option InvalidSyntaxErr :=
  expandLoop tmpl env (tmpl.length + 1) 0 false buf 0

/-- The name grammar of the specification: first character a letter or
underscore, every later character a letter, digit or underscore. -/
def checkName (nm : List Char) : Bool :=
  match nm with
  | [] => false
  | c :: cs => validNameFirstChar c && cs.all validNameChar

/-- A bounds-checked Go slice of the form l[a:b]: some exactly when
a ≤ b ≤ len, which is when the Go original does not panic. -/
def goSlice (l : List Char) (a b : Nat) : Option (List Char) :=
  if a ≤ b ∧ b ≤ l.length then some ((l.drop a).take (b - a)) else none

/-- A bounds-checked Go slice of the form l[a:]. -/
def goSuffix (l : List Char) (a : Nat) : Option (List Char) :=
  if a ≤ l.length then some (l.drop a) else none

/-- A bounds-checked Go index l[a]. -/
def goIndex (l : List Char) (a : Nat) : Option Char :=
  if h : a < l.length then some l[a] else none

/-- varInfo with the index expression data[nameLen - 1] of the source read
through the checked index: none exactly when the Go original would panic. -/
def varInfoChecked (data : List Char) :
    Option (Except (Nat × ErrKind) (List Char × List Char × Nat)) :=
  match readVarName data with
  | .error (w, e) => some (.error (w, e))
  | .ok (name, nameLen) =>
    match goIndex data (nameLen - 1) with
    | none => none
    | some c =>
      if c == '}' then some (.ok (name, [], nameLen))
      else
        match readDefaultValue (data.drop nameLen) with
        | .error (w, e) => some (.error (nameLen + w, e))
        | .ok (dv, valLen) => some (.ok (name, dv, nameLen + valLen))

/-- The scanning loop of Expand with every slice and index expression of
the source bounds-checked: the checked run returns none exactly when some
Go slice or index expression would be out of range and panic. -/
def expandLoopChecked (tmpl : List Char) (env : Environment) :
    Nat → Nat → Bool → List Char → Nat →
      Option (Option (List Char) × Option InvalidSyntaxErr)
  | 0, i, _, buf, _ =>
    match goSuffix tmpl i with
    | none => none
    | some t => some (some (buf ++ t), none)
  | fuel + 1, i, dollar, buf, j =>
    if h : j < tmpl.length then
      if tmpl[j] == '$' then
        if !dollar then expandLoopChecked tmpl env fuel i true buf (j + 1)
        else
          match goSlice tmpl i j with
          | none => none
          | some run => expandLoopChecked tmpl env fuel (j + 1) false (buf ++ run) (j + 1)
      else if tmpl[j] == '{' then
        if !dollar then expandLoopChecked tmpl env fuel i dollar buf (j + 1)
        else
          match goSlice tmpl i (j - 1) with
          | none => none
          | some run =>
            match goSuffix tmpl (j + 1) with
            | none => none
            | some rest =>
              match varInfoChecked rest with
              | none => none
              | some (.error (w, e)) =>
                match goSlice tmpl (j - 1) (min (j + w + 5) tmpl.length) with
                | none => none
                | some preview => some (none, some ⟨w + 2, preview, e⟩)
              | some (.ok (name, defaultValue, w)) =>
                let buf3 := match env.lookupEnv name with
                  | some val => buf ++ run ++ val
                  | none => buf ++ run ++ defaultValue
                expandLoopChecked tmpl env fuel (j + w + 1) false buf3 (j + w + 1)
      else expandLoopChecked tmpl env fuel i false buf (j + 1)
    else
      match goSuffix tmpl i with
      | none => none
      | some t => some (some (buf ++ t), none)

/-- Expand with every slice and index bounds-checked. -/
def ExpandChecked (tmpl : List Char) (env : Environment) (buf : List Char) :
    Option (Option (List Char) × Option InvalidSyntaxErr) :=
  expandLoopChecked tmpl env (tmpl.length + 1) 0 false buf 0

/-- A provider with no bindings at all, used to instantiate theorems. -/
def noEnv : Environment := ⟨fun _ => none⟩

example : readVarName ['a', 'b', '}', 'c'] = .ok (['a', 'b'], 3) := rfl
example : readVarName ['a', 'b'] = .error (2, .unterminated) := rfl
example : readVarName ['2', 'a', '}'] = .error (0, .invalidStartingCharacter) := rfl
example : readVarName ['a', 's', '*', 'f', '}'] = .error (2, .invalidCharacter) := rfl
example : readDefaultValue ['b', 'a', 'r', '}', 'x'] = .ok (['b', 'a', 'r'], 4) := rfl
example : readDefaultValue ['a', 's', '\\', '}', '}', 'f', '}'] = .ok (['a', 's', '}'], 5) := rfl
example :
    readDefaultValue ['a', 's', '\\', '\\', '\\', '}', '}', 'f', '}'] =
      .ok (['a', 's', '\\', '}'], 7) := rfl
example : readDefaultValue ['w', '\\', 'o', 'r', 'l', 'd', '}'] = .error (2, .invalidEscape) := rfl
example : Expand ['a', '$', '$', 'b'] noEnv [] = (some ['a', '$', 'b'], none) := by decide
example :
    Expand ['$', '{', 'a', 's', 'd', 'f'] noEnv [] =
      (none, some ⟨6, ['$', '{', 'a', 's', 'd', 'f'], .unterminated⟩) := by decide
example :
    Expand ['x', '$', '{', 'a', '|', 'b', '}', 'y'] noEnv [] =
      (some ['x', 'b', 'y'], none) := by decide
example :
    Expand ['x', '$', '{', 'a', '}', 'y'] ⟨fun nm => if nm = ['a'] then some ['v'] else none⟩ [] =
      (some ['x', 'v', 'y'], none) := by decide

end Expando

namespace Expando

/-- When the scan position has reached the end of the template, the loop
flushes the final literal run and succeeds, for every fuel value. -/
theorem expandLoop_end (tmpl : List Char) (env : Environment) (fuel i : Nat) (d : Bool)
    (buf : List Char) (j : Nat) (hj : tmpl.length ≤ j) :
    expandLoop tmpl env fuel i d buf j = (some (buf ++ tmpl.drop i), none) := by
  cases fuel with
  | zero => rfl
  | succ fuel =>
    rw [expandLoop, dif_neg (by omega)]

/-- The loop never returns a result buffer and an error together. -/
theorem expandLoop_exclusive (tmpl : List Char) (env : Environment) :
    ∀ fuel i d buf j, (expandLoop tmpl env fuel i d buf j).2 = none ∨
      (expandLoop tmpl env fuel i d buf j).1 = none := by
  intro fuel
  induction fuel with
  | zero => intro i d buf j; left; rfl
  | succ fuel ih =>
    intro i d buf j
    rw [expandLoop]
    by_cases hj : j < tmpl.length
    · rw [dif_pos hj]
      by_cases h1 : tmpl[j] == '$'
      · rw [if_pos h1]
        cases d
        · simp only [Bool.not_false]
          rw [if_pos trivial]
          exact ih i true buf (j + 1)
        · simp only [Bool.not_true]
          rw [if_neg (by simp)]
          exact ih (j + 1) false _ (j + 1)
      · rw [if_neg h1]
        by_cases h2 : tmpl[j] == '{'
        · rw [if_pos h2]
          cases d
          · simp only [Bool.not_false]
            rw [if_pos trivial]
            exact ih i false buf (j + 1)
          · simp only [Bool.not_true]
            rw [if_neg (by simp)]
            rcases hvi : varInfo (tmpl.drop (j + 1)) with ⟨w, ek⟩ | ⟨name, dv, w⟩
            · right
              simp [hvi]
            · simp only [hvi]
              exact ih (j + w + 1) false _ (j + w + 1)
        · rw [if_neg h2]
          exact ih i false buf (j + 1)
    · rw [dif_neg hj]
      left
      rfl

/-- Claim C5: whenever Expand returns a syntax error, the returned result
buffer is none; no partial output is returned even when a non-empty buffer
was supplied, and the first malformed construct aborts the expansion. -/
theorem claim_C5 (tmpl : List Char) (env : Environment) (buf : List Char)
    (e : InvalidSyntaxErr) (h : (Expand tmpl env buf).2 = some e) :
    (Expand tmpl env buf).1 = none := by
  rcases expandLoop_exclusive tmpl env (tmpl.length + 1) 0 false buf 0 with h2 | h2
  · rw [Expand] at h
    rw [h] at h2
    cases h2
  · exact h2

/-- Witness for claim C5 at a concrete unterminated template and non-empty
supplied buffer. -/
theorem claim_C5_witness :
    (Expand ['$', '{', 'a', 's', 'd', 'f'] noEnv ['z']).1 = none :=
  claim_C5 ['$', '{', 'a', 's', 'd', 'f'] noEnv ['z']
    ⟨6, ['$', '{', 'a', 's', 'd', 'f'], .unterminated⟩ (by decide)

/-- Claim C3: readDefaultValue un-escapes a backslash-brace pair to a
literal closing brace that does not terminate the value, and a double
backslash to a literal backslash; on the two concrete inputs of the
specification it returns the stated values and consumed lengths, and in
general the slow loop maps the two escape pairs to their single un-escaped
characters and continues scanning. -/
theorem claim_C3 :
    readDefaultValue ['a', 's', '\\', '}', '}', 'f', '}'] = .ok (['a', 's', '}'], 5) ∧
    readDefaultValue ['a', 's', '\\', '\\', '\\', '}', '}', 'f', '}'] =
      .ok (['a', 's', '\\', '}'], 7) ∧
    (∀ buf i rest, readDefaultSlowLoop buf false i ('\\' :: '}' :: rest) =
      readDefaultSlowLoop (buf ++ ['}']) false (i + 2) rest) ∧
    (∀ buf i rest, readDefaultSlowLoop buf false i ('\\' :: '\\' :: rest) =
      readDefaultSlowLoop (buf ++ ['\\']) false (i + 2) rest) :=
  ⟨rfl, rfl, fun _ _ _ => rfl, fun _ _ _ => rfl⟩

/-- Claim C6: a character after an unconsumed backslash that is neither a
backslash nor a closing brace makes readDefaultValue fail as invalidEscape,
with consumed length the offset of that character; concretely on the input
w backslash o r l d brace the failure is at consumed length 2. -/
theorem claim_C6 :
    readDefaultValue ['w', '\\', 'o', 'r', 'l', 'd', '}'] = .error (2, .invalidEscape) ∧
    (∀ buf i c rest, c ≠ '\\' → c ≠ '}' →
      readDefaultSlowLoop buf false i ('\\' :: c :: rest) = .error (i + 1, .invalidEscape)) := by
  refine ⟨rfl, fun buf i c rest hc1 hc2 => ?_⟩
  have h1 : (c == '\\') = false := by simp [hc1]
  have h2 : (c != '}') = true := by simp [hc2]
  simp [readDefaultSlowLoop, h1, h2]

/-- Witness for claim C6 at the concrete escaped character o. -/
theorem claim_C6_witness :
    readDefaultSlowLoop [] false 0 ['\\', 'o'] = .error (1, .invalidEscape) :=
  claim_C6.2 [] 0 'o' [] (by decide) (by decide)

/-- One step of the loop: a first dollar sign only sets the pending flag. -/
theorem expandLoop_step_dollar1 (tmpl : List Char) (env : Environment)
    (fuel i : Nat) (buf : List Char) (j : Nat)
    (h : j < tmpl.length) (hc : tmpl[j] = '$') :
    expandLoop tmpl env (fuel + 1) i false buf j =
      expandLoop tmpl env fuel i true buf (j + 1) := by
  rw [expandLoop, dif_pos h]
  simp [hc]

/-- One step of the loop: a second consecutive dollar sign flushes the
literal run up to and including the first dollar sign. -/
theorem expandLoop_step_dollar2 (tmpl : List Char) (env : Environment)
    (fuel i : Nat) (buf : List Char) (j : Nat)
    (h : j < tmpl.length) (hc : tmpl[j] = '$') :
    expandLoop tmpl env (fuel + 1) i true buf j =
      expandLoop tmpl env fuel (j + 1) false
        (buf ++ (tmpl.drop i).take (j - i)) (j + 1) := by
  rw [expandLoop, dif_pos h]
  simp [hc]

/-- One step of the loop: an opening brace with no pending dollar is an
ordinary literal character. -/
theorem expandLoop_step_openBrace (tmpl : List Char) (env : Environment)
    (fuel i : Nat) (buf : List Char) (j : Nat)
    (h : j < tmpl.length) (hc : tmpl[j] = '{') :
    expandLoop tmpl env (fuel + 1) i false buf j =
      expandLoop tmpl env fuel i false buf (j + 1) := by
  rw [expandLoop, dif_pos h]
  simp [hc]

/-- One step of the loop: a failing reference aborts with the wrapped
syntax error built from the failing width. -/
theorem expandLoop_step_refErr (tmpl : List Char) (env : Environment)
    (fuel i : Nat) (buf : List Char) (j w : Nat) (ek : ErrKind)
    (h : j < tmpl.length) (hc : tmpl[j] = '{')
    (hvi : varInfo (tmpl.drop (j + 1)) = .error (w, ek)) :
    expandLoop tmpl env (fuel + 1) i true buf j =
      (none, some ⟨w + 2,
        (tmpl.drop (j - 1)).take (min (j + w + 5) tmpl.length - (j - 1)), ek⟩) := by
  rw [expandLoop, dif_pos h]
  simp [hc, hvi]

/-- One step of the loop: a parsed reference whose name the provider
resolves appends the literal run and the resolved value. -/
theorem expandLoop_step_refHit (tmpl : List Char) (env : Environment)
    (fuel i : Nat) (buf : List Char) (j w : Nat) (name dv val : List Char)
    (h : j < tmpl.length) (hc : tmpl[j] = '{')
    (hvi : varInfo (tmpl.drop (j + 1)) = .ok (name, dv, w))
    (hlk : env.lookupEnv name = some val) :
    expandLoop tmpl env (fuel + 1) i true buf j =
      expandLoop tmpl env fuel (j + w + 1) false
        (buf ++ (tmpl.drop i).take (j - 1 - i) ++ val) (j + w + 1) := by
  rw [expandLoop, dif_pos h]
  simp [hc, hvi, hlk]

/-- One step of the loop: a parsed reference whose name the provider does
not resolve appends the literal run and the default value. -/
theorem expandLoop_step_refMiss (tmpl : List Char) (env : Environment)
    (fuel i : Nat) (buf : List Char) (j w : Nat) (name dv : List Char)
    (h : j < tmpl.length) (hc : tmpl[j] = '{')
    (hvi : varInfo (tmpl.drop (j + 1)) = .ok (name, dv, w))
    (hlk : env.lookupEnv name = none) :
    expandLoop tmpl env (fuel + 1) i true buf j =
      expandLoop tmpl env fuel (j + w + 1) false
        (buf ++ (tmpl.drop i).take (j - 1 - i) ++ dv) (j + w + 1) := by
  rw [expandLoop, dif_pos h]
  simp [hc, hvi, hlk]

/-- One step of the loop: every other character clears the pending flag and
extends the literal run. -/
theorem expandLoop_step_other (tmpl : List Char) (env : Environment)
    (fuel i : Nat) (d : Bool) (buf : List Char) (j : Nat)
    (h : j < tmpl.length) (hc1 : tmpl[j] ≠ '$') (hc2 : tmpl[j] ≠ '{') :
    expandLoop tmpl env (fuel + 1) i d buf j =
      expandLoop tmpl env fuel i false buf (j + 1) := by
  rw [expandLoop, dif_pos h]
  simp [hc1, hc2]

/-- Prepending content to the buffer only prepends it to a successful
result and leaves the error component unchanged. -/
theorem expandLoop_buf_append (tmpl : List Char) (env : Environment) :
    ∀ fuel b0 i d b j,
      expandLoop tmpl env fuel i d (b0 ++ b) j =
        (((expandLoop tmpl env fuel i d b j).1).map (fun r => b0 ++ r),
          (expandLoop tmpl env fuel i d b j).2) := by
  intro fuel
  induction fuel with
  | zero => intro b0 i d b j; simp [expandLoop]
  | succ fuel ih =>
    intro b0 i d b j
    by_cases hj : j < tmpl.length
    · by_cases h1 : tmpl[j] = '$'
      · cases d
        · rw [expandLoop_step_dollar1 tmpl env fuel i (b0 ++ b) j hj h1,
            expandLoop_step_dollar1 tmpl env fuel i b j hj h1]
          exact ih b0 i true b (j + 1)
        · rw [expandLoop_step_dollar2 tmpl env fuel i (b0 ++ b) j hj h1,
            expandLoop_step_dollar2 tmpl env fuel i b j hj h1]
          rw [List.append_assoc]
          exact ih b0 (j + 1) false _ (j + 1)
      · by_cases h2 : tmpl[j] = '{'
        · cases d
          · rw [expandLoop_step_openBrace tmpl env fuel i (b0 ++ b) j hj h2,
              expandLoop_step_openBrace tmpl env fuel i b j hj h2]
            exact ih b0 i false b (j + 1)
          · rcases hvi : varInfo (tmpl.drop (j + 1)) with ⟨w, ek⟩ | ⟨name, dv, w⟩
            · rw [expandLoop_step_refErr tmpl env fuel i (b0 ++ b) j w ek hj h2 hvi,
                expandLoop_step_refErr tmpl env fuel i b j w ek hj h2 hvi]
              rfl
            · cases hlk : env.lookupEnv name
              · rw [expandLoop_step_refMiss tmpl env fuel i (b0 ++ b) j w name dv hj h2 hvi hlk,
                  expandLoop_step_refMiss tmpl env fuel i b j w name dv hj h2 hvi hlk]
                simp only [List.append_assoc]
                exact ih b0 (j + w + 1) false _ (j + w + 1)
              · rw [expandLoop_step_refHit tmpl env fuel i (b0 ++ b) j w name dv _ hj h2 hvi hlk,
                  expandLoop_step_refHit tmpl env fuel i b j w name dv _ hj h2 hvi hlk]
                simp only [List.append_assoc]
                exact ih b0 (j + w + 1) false _ (j + w + 1)
        · rw [expandLoop_step_other tmpl env fuel i d (b0 ++ b) j hj h1 h2,
            expandLoop_step_other tmpl env fuel i d b j hj h1 h2]
          exact ih b0 i false b (j + 1)
    · rw [expandLoop_end tmpl env (fuel + 1) i d (b0 ++ b) j (by omega),
        expandLoop_end tmpl env (fuel + 1) i d b j (by omega)]
      simp

/-- Claim C8: on success Expand returns exactly the supplied buffer followed
by the expansion of the template computed from an empty buffer; the error
component does not depend on the supplied buffer.  Expand only appends and
never rewrites the pre-existing contents. -/
theorem claim_C8 (tmpl : List Char) (env : Environment) (buf : List Char) :
    Expand tmpl env buf =
      (((Expand tmpl env []).1).map (fun r => buf ++ r), (Expand tmpl env []).2) := by
  have h := expandLoop_buf_append tmpl env (tmpl.length + 1) buf 0 false [] 0
  rw [List.append_nil] at h
  exact h

/-- With no dollar sign anywhere in the template the loop copies the rest
of the template verbatim from any scan position. -/
theorem expandLoop_noDollar (tmpl : List Char) (env : Environment)
    (hnd : ∀ c ∈ tmpl, c ≠ '$') :
    ∀ fuel i buf j, expandLoop tmpl env fuel i false buf j =
      (some (buf ++ tmpl.drop i), none) := by
  intro fuel
  induction fuel with
  | zero => intro i buf j; rfl
  | succ fuel ih =>
    intro i buf j
    by_cases hj : j < tmpl.length
    · have hc1 : tmpl[j] ≠ '$' := hnd _ (List.getElem_mem hj)
      by_cases h2 : tmpl[j] = '{'
      · rw [expandLoop_step_openBrace tmpl env fuel i buf j hj h2]
        exact ih i buf (j + 1)
      · rw [expandLoop_step_other tmpl env fuel i false buf j hj hc1 h2]
        exact ih i buf (j + 1)
    · exact expandLoop_end tmpl env _ i false buf j (by omega)

/-- Claim C9: a template containing no dollar sign expands to itself,
verbatim, appended to the supplied buffer, braces, pipes and backslashes
included. -/
theorem claim_C9 (tmpl : List Char) (env : Environment) (buf : List Char)
    (hnd : ∀ c ∈ tmpl, c ≠ '$') :
    Expand tmpl env buf = (some (buf ++ tmpl), none) := by
  have h := expandLoop_noDollar tmpl env hnd (tmpl.length + 1) 0 buf 0
  simpa using h

/-- Witness for claim C9 on a literal template holding braces, a backslash
and a pipe, with a non-empty starting buffer. -/
theorem claim_C9_witness :
    Expand ['a', '{', 'b', '}', '\\', '|', 'c'] noEnv ['z'] =
      (some (['z'] ++ ['a', '{', 'b', '}', '\\', '|', 'c']), none) :=
  claim_C9 ['a', '{', 'b', '}', '\\', '|', 'c'] noEnv ['z'] (by decide)

/-- Dropping past an appended front list is dropping in the back list. -/
theorem drop_shift (pre l : List Char) (i : Nat) :
    (pre ++ l).drop (i + pre.length) = l.drop i := by
  rw [Nat.add_comm]
  exact List.drop_append i

/-- Indexing past an appended front list is indexing in the back list. -/
theorem getElem_shift (pre l : List Char) (j : Nat) (hj : j < l.length)
    (hbig : j + pre.length < (pre ++ l).length) :
    (pre ++ l)[j + pre.length] = l[j] := by
  rw [List.getElem_append_right (by omega)]
  congr 1
  omega

/-- Scanning the tail of a template behind a fully processed front behaves
exactly like scanning the tail alone: every state component shifts by the
front length and the produced output and error coincide.  The hypothesis
ties the pending-dollar flag to a positive scan position, which every
reachable state satisfies. -/
theorem expandLoop_shift (pre t2 : List Char) (env : Environment) :
    ∀ fuel i d buf j, (d = true → 1 ≤ j) →
      expandLoop (pre ++ t2) env fuel (i + pre.length) d buf (j + pre.length) =
        expandLoop t2 env fuel i d buf j := by
  intro fuel
  induction fuel with
  | zero =>
    intro i d buf j _
    show (some (buf ++ (pre ++ t2).drop (i + pre.length)), none) = _
    rw [drop_shift]
    rfl
  | succ fuel ih =>
    intro i d buf j hd
    by_cases hj : j < t2.length
    · have hjb : j + pre.length < (pre ++ t2).length := by
        rw [List.length_append]; omega
      have hget : (pre ++ t2)[j + pre.length] = t2[j] := getElem_shift pre t2 j hj hjb
      by_cases h1 : t2[j] = '$'
      · have h1b : (pre ++ t2)[j + pre.length] = '$' := by rw [hget]; exact h1
        cases d
        · rw [expandLoop_step_dollar1 (pre ++ t2) env fuel (i + pre.length) buf
            (j + pre.length) hjb h1b]
          rw [expandLoop_step_dollar1 t2 env fuel i buf j hj h1]
          have harith : j + pre.length + 1 = (j + 1) + pre.length := by omega
          rw [harith]
          exact ih i true buf (j + 1) (fun _ => by omega)
        · rw [expandLoop_step_dollar2 (pre ++ t2) env fuel (i + pre.length) buf
            (j + pre.length) hjb h1b]
          rw [expandLoop_step_dollar2 t2 env fuel i buf j hj h1]
          rw [drop_shift]
          have ha1 : j + pre.length - (i + pre.length) = j - i := by omega
          rw [ha1]
          have ha2 : j + pre.length + 1 = (j + 1) + pre.length := by omega
          rw [ha2]
          exact ih (j + 1) false _ (j + 1) (fun h => by cases h)
      · by_cases h2 : t2[j] = '{'
        · have h2b : (pre ++ t2)[j + pre.length] = '{' := by rw [hget]; exact h2
          cases d
          · rw [expandLoop_step_openBrace (pre ++ t2) env fuel (i + pre.length) buf
              (j + pre.length) hjb h2b]
            rw [expandLoop_step_openBrace t2 env fuel i buf j hj h2]
            have harith : j + pre.length + 1 = (j + 1) + pre.length := by omega
            rw [harith]
            exact ih i false buf (j + 1) (fun h => by cases h)
          · have hj1 : 1 ≤ j := hd rfl
            have hdropArg : (pre ++ t2).drop (j + pre.length + 1) = t2.drop (j + 1) := by
              rw [show j + pre.length + 1 = (j + 1) + pre.length by omega, drop_shift]
            rcases hvi : varInfo (t2.drop (j + 1)) with ⟨w, ek⟩ | ⟨name, dv, w⟩
            · have hvib : varInfo ((pre ++ t2).drop (j + pre.length + 1)) = .error (w, ek) := by
                rw [hdropArg, hvi]
              rw [expandLoop_step_refErr (pre ++ t2) env fuel (i + pre.length) buf
                (j + pre.length) w ek hjb h2b hvib]
              rw [expandLoop_step_refErr t2 env fuel i buf j w ek hj h2 hvi]
              have hdropPrev : (pre ++ t2).drop (j + pre.length - 1) = t2.drop (j - 1) := by
                rw [show j + pre.length - 1 = (j - 1) + pre.length by omega, drop_shift]
              rw [hdropPrev]
              have hlen : min (j + pre.length + w + 5) ((pre ++ t2).length) -
                  (j + pre.length - 1) = min (j + w + 5) t2.length - (j - 1) := by
                rw [List.length_append]; omega
              rw [hlen]
            · have hvib : varInfo ((pre ++ t2).drop (j + pre.length + 1)) =
                  .ok (name, dv, w) := by
                rw [hdropArg, hvi]
              have ha3 : j + pre.length - 1 - (i + pre.length) = j - 1 - i := by omega
              have ha4 : j + pre.length + w + 1 = (j + w + 1) + pre.length := by omega
              cases hlk : env.lookupEnv name with
              | none =>
                rw [expandLoop_step_refMiss (pre ++ t2) env fuel (i + pre.length) buf
                  (j + pre.length) w name dv hjb h2b hvib hlk]
                rw [expandLoop_step_refMiss t2 env fuel i buf j w name dv hj h2 hvi hlk]
                rw [drop_shift, ha3, ha4]
                exact ih (j + w + 1) false _ (j + w + 1) (fun h => by cases h)
              | some val =>
                rw [expandLoop_step_refHit (pre ++ t2) env fuel (i + pre.length) buf
                  (j + pre.length) w name dv val hjb h2b hvib hlk]
                rw [expandLoop_step_refHit t2 env fuel i buf j w name dv val hj h2 hvi hlk]
                rw [drop_shift, ha3, ha4]
                exact ih (j + w + 1) false _ (j + w + 1) (fun h => by cases h)
        · have h1b : (pre ++ t2)[j + pre.length] ≠ '$' := by rw [hget]; exact h1
          have h2b : (pre ++ t2)[j + pre.length] ≠ '{' := by rw [hget]; exact h2
          rw [expandLoop_step_other (pre ++ t2) env fuel (i + pre.length) d buf
            (j + pre.length) hjb h1b h2b]
          rw [expandLoop_step_other t2 env fuel i d buf j hj h1 h2]
          have harith : j + pre.length + 1 = (j + 1) + pre.length := by omega
          rw [harith]
          exact ih i false buf (j + 1) (fun h => by cases h)
    · rw [expandLoop_end (pre ++ t2) env (fuel + 1) (i + pre.length) d buf (j + pre.length)
        (by rw [List.length_append]; omega)]
      rw [expandLoop_end t2 env (fuel + 1) i d buf j (by omega)]
      rw [drop_shift]

/-- Scanning across a dollar-free segment of the template leaves the
literal-run start, the flag and the buffer untouched and advances the scan
position past the segment, consuming one fuel per character. -/
theorem expandLoop_scanLit (tmpl : List Char) (env : Environment) :
    ∀ (u v : List Char) (fuel i : Nat) (buf : List Char) (j : Nat),
      tmpl.drop j = u ++ v → (∀ c ∈ u, c ≠ '$') →
      expandLoop tmpl env (fuel + u.length) i false buf j =
        expandLoop tmpl env fuel i false buf (j + u.length) := by
  intro u
  induction u with
  | nil => intro v fuel i buf j _ _; simp
  | cons c u ihu =>
    intro v fuel i buf j hdrop hnd
    have hj : j < tmpl.length := by
      by_contra hq
      rw [List.drop_eq_nil_of_le (by omega)] at hdrop
      simp at hdrop
    rw [List.drop_eq_getElem_cons hj] at hdrop
    simp only [List.cons_append] at hdrop
    injection hdrop with hcj hdrop2
    have hc1 : tmpl[j] ≠ '$' := by
      rw [hcj]
      exact hnd c (by simp)
    show expandLoop tmpl env ((fuel + u.length) + 1) i false buf j =
      expandLoop tmpl env fuel i false buf (j + (u.length + 1))
    have hrest : ∀ x ∈ u, x ≠ '$' := fun x hx => hnd x (by simp [hx])
    by_cases h2 : tmpl[j] = '{'
    · rw [expandLoop_step_openBrace tmpl env (fuel + u.length) i buf j hj h2]
      rw [ihu v fuel i buf (j + 1) hdrop2 hrest]
      congr 1
      omega
    · rw [expandLoop_step_other tmpl env (fuel + u.length) i false buf j hj hc1 h2]
      rw [ihu v fuel i buf (j + 1) hdrop2 hrest]
      congr 1
      omega

/-- Claim C1: a pair of adjacent dollar signs reached with no pending
reference collapses to exactly one literal dollar sign in the output: with
any dollar-free text before it, expanding the whole template equals
expanding the remainder with the front text and a single dollar sign
already appended, both on success and on error. -/
theorem claim_C1 (t1 t2 : List Char) (env : Environment) (buf : List Char)
    (hnd : ∀ c ∈ t1, c ≠ '$') :
    Expand (t1 ++ '$' :: '$' :: t2) env buf = Expand t2 env (buf ++ t1 ++ ['$']) := by
  have hlen : (t1 ++ '$' :: '$' :: t2).length = t1.length + 2 + t2.length := by
    simp only [List.length_append, List.length_cons]
    omega
  rw [Expand]
  rw [show (t1 ++ '$' :: '$' :: t2).length + 1 = (t2.length + 3) + t1.length by omega]
  rw [expandLoop_scanLit (t1 ++ '$' :: '$' :: t2) env t1 ('$' :: '$' :: t2)
    (t2.length + 3) 0 buf 0 (by simp) hnd]
  rw [Nat.zero_add]
  have hdrop1 : (t1 ++ '$' :: '$' :: t2).drop t1.length = '$' :: '$' :: t2 := by
    simp
  have hj1 : t1.length < (t1 ++ '$' :: '$' :: t2).length := by omega
  rw [List.drop_eq_getElem_cons hj1] at hdrop1
  injection hdrop1 with hc1 hdrop2
  rw [show t2.length + 3 = (t2.length + 2) + 1 by omega]
  rw [expandLoop_step_dollar1 (t1 ++ '$' :: '$' :: t2) env (t2.length + 2) 0 buf
    t1.length hj1 hc1]
  have hj2 : t1.length + 1 < (t1 ++ '$' :: '$' :: t2).length := by omega
  rw [List.drop_eq_getElem_cons hj2] at hdrop2
  injection hdrop2 with hc2 hdrop3
  rw [show t2.length + 2 = (t2.length + 1) + 1 by omega]
  rw [expandLoop_step_dollar2 (t1 ++ '$' :: '$' :: t2) env (t2.length + 1) 0 buf
    (t1.length + 1) hj2 hc2]
  simp only [List.drop_zero, Nat.sub_zero]
  have htake : (t1 ++ '$' :: '$' :: t2).take (t1.length + 1) = t1 ++ ['$'] := by
    rw [List.take_append 1]
    rfl
  rw [htake]
  have hshift := expandLoop_shift (t1 ++ ['$', '$']) t2 env (t2.length + 1) 0 false
    (buf ++ (t1 ++ ['$'])) 0 (fun h => by cases h)
  simp only [Nat.zero_add, List.length_append, List.length_cons, List.length_nil] at hshift
  rw [show (t1 ++ ['$', '$']) ++ t2 = t1 ++ '$' :: '$' :: t2 by simp] at hshift
  rw [show t1.length + 1 + 1 = t1.length + (0 + 1 + 1) by omega]
  rw [hshift]
  rw [Expand, List.append_assoc]

/-- Witness for claim C1: expanding the template a dollar dollar b equals
expanding b with a and one dollar sign already in the buffer; on the empty
provider both sides evaluate to the literal a dollar b. -/
theorem claim_C1_witness :
    Expand ['a', '$', '$', 'b'] noEnv [] = Expand ['b'] noEnv ([] ++ ['a'] ++ ['$']) ∧
    Expand ['a', '$', '$', 'b'] noEnv [] = (some ['a', '$', 'b'], none) :=
  ⟨claim_C1 ['a'] ['b'] noEnv [] (by decide), by decide⟩

/-- A valid name character is neither a closing brace nor a pipe. -/
theorem validNameChar_ne_delim (c : Char) (h : validNameChar c = true) :
    c ≠ '}' ∧ c ≠ '|' := by
  refine ⟨?_, ?_⟩ <;> rintro rfl <;> exact absurd h (by decide)

/-- A valid first name character is neither a closing brace nor a pipe. -/
theorem validNameFirstChar_ne_delim (c : Char) (h : validNameFirstChar c = true) :
    c ≠ '}' ∧ c ≠ '|' := by
  refine ⟨?_, ?_⟩ <;> rintro rfl <;> exact absurd h (by decide)

/-- The name loop run over valid name characters stops exactly at the first
delimiter and returns the consumed name slice. -/
theorem readVarNameAux_forward (full : List Char) :
    ∀ (mid : List Char) (d : Char) (rest : List Char) (i : Nat),
      (d = '}' ∨ d = '|') → (∀ c ∈ mid, validNameChar c = true) →
      readVarNameAux full i (mid ++ d :: rest) =
        .ok (full.take (i + mid.length), i + mid.length + 1) := by
  intro mid
  induction mid with
  | nil =>
    intro d rest i hd _
    rcases hd with rfl | rfl <;> simp [readVarNameAux]
  | cons c mid ih =>
    intro d rest i hd hv
    have hc : validNameChar c = true := hv c (by simp)
    have hne := validNameChar_ne_delim c hc
    rw [List.cons_append]
    rw [readVarNameAux]
    rw [if_neg (by simp [hne.1, hne.2])]
    rw [if_neg (by simp [hc])]
    rw [ih d rest (i + 1) hd (fun x hx => hv x (by simp [hx]))]
    simp only [List.length_cons]
    rw [show i + 1 + mid.length = i + (mid.length + 1) by omega]

/-- readVarName on a well-formed name followed by a delimiter returns the
name and consumes it together with the delimiter. -/
theorem readVarName_forward (nm : List Char) (d : Char) (rest : List Char)
    (hnm : checkName nm = true) (hd : d = '}' ∨ d = '|') :
    readVarName (nm ++ d :: rest) = .ok (nm, nm.length + 1) := by
  cases nm with
  | nil => simp [checkName] at hnm
  | cons c cs =>
    rw [checkName] at hnm
    rw [Bool.and_eq_true] at hnm
    obtain ⟨hfc, hall⟩ := hnm
    rw [List.all_eq_true] at hall
    have hne := validNameFirstChar_ne_delim c hfc
    rw [List.cons_append]
    rw [readVarName]
    rw [if_neg (by simp [hne.1, hne.2])]
    rw [if_neg (by simp [hfc])]
    rw [readVarNameAux_forward (c :: (cs ++ d :: rest)) cs d rest 1 hd
      (fun x hx => hall x hx)]
    rw [show (1 : Nat) + cs.length = cs.length + 1 by omega]
    rw [List.take_succ_cons, List.take_left]
    simp

/-- The escape-free scan of readDefaultValue over a value with no backslash
and no closing brace stops exactly at the terminating brace. -/
theorem readDefaultFastLoop_clean (full : List Char) :
    ∀ (dfl rest : List Char) (i : Nat),
      (∀ c ∈ dfl, c ≠ '\\' ∧ c ≠ '}') →
      readDefaultFastLoop full i (dfl ++ '}' :: rest) =
        .ok (.inl (full.take (i + dfl.length), i + dfl.length + 1)) := by
  intro dfl
  induction dfl with
  | nil =>
    intro rest i _
    simp [readDefaultFastLoop]
  | cons c dfl ih =>
    intro rest i hc
    have h1 := hc c (by simp)
    rw [List.cons_append]
    rw [readDefaultFastLoop]
    rw [if_neg (by simp [h1.1])]
    rw [if_neg (by simp [h1.2])]
    rw [ih rest (i + 1) (fun x hx => hc x (by simp [hx]))]
    simp only [List.length_cons]
    rw [show i + 1 + dfl.length = i + (dfl.length + 1) by omega]

/-- readDefaultValue on an escape-free default value followed by trailing
text returns the value and consumes it with the closing brace. -/
theorem readDefaultValue_clean (dfl rest : List Char)
    (h : ∀ c ∈ dfl, c ≠ '\\' ∧ c ≠ '}') :
    readDefaultValue (dfl ++ '}' :: rest) = .ok (dfl, dfl.length + 1) := by
  rw [readDefaultValue]
  rw [readDefaultFastLoop_clean (dfl ++ '}' :: rest) dfl rest 0 h]
  simp only [Nat.zero_add]
  rw [List.take_left]

/-- varInfo on a reference body holding a well-formed name, a pipe and an
escape-free default value: only the first pipe separates name from default,
and the consumed width covers name, both delimiters and the value. -/
theorem varInfo_ref_default (nm dfl rest : List Char)
    (hnm : checkName nm = true) (hdfl : ∀ c ∈ dfl, c ≠ '\\' ∧ c ≠ '}') :
    varInfo (nm ++ '|' :: (dfl ++ '}' :: rest)) =
      .ok (nm, dfl, nm.length + dfl.length + 2) := by
  have hrv := readVarName_forward nm '|' (dfl ++ '}' :: rest) hnm (Or.inr rfl)
  have hgetD : (nm ++ '|' :: (dfl ++ '}' :: rest)).getD (nm.length + 1 - 1) ' ' = '|' := by
    rw [show nm.length + 1 - 1 = nm.length by omega]
    rw [List.getD_eq_getElem?_getD]
    rw [List.getElem?_append_right (by omega)]
    simp
  have hdrop : (nm ++ '|' :: (dfl ++ '}' :: rest)).drop (nm.length + 1) =
      dfl ++ '}' :: rest := by
    have h2 := drop_shift (nm ++ ['|']) (dfl ++ '}' :: rest) 0
    simp only [Nat.zero_add, List.length_append, List.length_cons, List.length_nil,
      List.drop_zero, List.append_assoc, List.singleton_append] at h2
    exact h2
  have hrd := readDefaultValue_clean dfl rest hdfl
  simp only [varInfo, hrv, hgetD, hdrop, hrd]
  rw [if_neg (by decide)]
  rw [show nm.length + 1 + (dfl.length + 1) = nm.length + dfl.length + 2 by omega]

/-- Claim C2: when the provider does not resolve the name of a reference
with a default value, Expand appends the default value; the default is
everything from the first pipe to the closing brace, so later pipe
characters stay inside the default. -/
theorem claim_C2 (nm dfl : List Char) (env : Environment) (buf : List Char)
    (hnm : checkName nm = true) (hdfl : ∀ c ∈ dfl, c ≠ '\\' ∧ c ≠ '}')
    (hlk : env.lookupEnv nm = none) :
    Expand ('$' :: '{' :: (nm ++ '|' :: (dfl ++ ['}']))) env buf =
      (some (buf ++ dfl), none) := by
  have hlen : ('$' :: '{' :: (nm ++ '|' :: (dfl ++ ['}']))).length =
      nm.length + dfl.length + 4 := by
    simp only [List.length_cons, List.length_append, List.length_nil]
    omega
  rw [Expand]
  rw [expandLoop_step_dollar1 ('$' :: '{' :: (nm ++ '|' :: (dfl ++ ['}']))) env
    (('$' :: '{' :: (nm ++ '|' :: (dfl ++ ['}']))).length) 0 buf 0 (by simp) rfl]
  have hvi : varInfo (('$' :: '{' :: (nm ++ '|' :: (dfl ++ ['}']))).drop (1 + 1)) =
      .ok (nm, dfl, nm.length + dfl.length + 2) :=
    varInfo_ref_default nm dfl [] hnm hdfl
  rw [show ('$' :: '{' :: (nm ++ '|' :: (dfl ++ ['}']))).length =
    (nm.length + dfl.length + 3) + 1 by omega]
  rw [expandLoop_step_refMiss ('$' :: '{' :: (nm ++ '|' :: (dfl ++ ['}']))) env
    (nm.length + dfl.length + 3) 0 buf 1 (nm.length + dfl.length + 2) nm dfl
    (by omega) rfl hvi hlk]
  rw [expandLoop_end ('$' :: '{' :: (nm ++ '|' :: (dfl ++ ['}']))) env
    (nm.length + dfl.length + 3) (1 + (nm.length + dfl.length + 2) + 1) false
    (buf ++ (('$' :: '{' :: (nm ++ '|' :: (dfl ++ ['}']))).drop 0).take (1 - 1 - 0) ++ dfl)
    (1 + (nm.length + dfl.length + 2) + 1) (by omega)]
  rw [show 1 + (nm.length + dfl.length + 2) + 1 =
    ('$' :: '{' :: (nm ++ '|' :: (dfl ++ ['}']))).length by omega]
  rw [List.drop_length]
  simp

/-- Witness for claim C2: the template with name hello and default
world pipe foo expands, under the empty provider, to world pipe foo:
the second pipe is literal default content. -/
theorem claim_C2_witness :
    Expand ('$' :: '{' :: (['h', 'e', 'l', 'l', 'o'] ++ '|' ::
        (['w', 'o', 'r', 'l', 'd', '|', 'f', 'o', 'o'] ++ ['}']))) noEnv [] =
      (some ([] ++ ['w', 'o', 'r', 'l', 'd', '|', 'f', 'o', 'o']), none) :=
  claim_C2 ['h', 'e', 'l', 'l', 'o'] ['w', 'o', 'r', 'l', 'd', '|', 'f', 'o', 'o']
    noEnv [] (by decide) (by decide) rfl

/-- Every syntax error the loop returns originates at an opening brace of a
reference: its cause and width come from varInfo on the text after the
brace, its position is that width plus two, and its value is the template
slice from the dollar sign through the bounded preview end. -/
theorem expandLoop_err_spec (tmpl : List Char) (env : Environment) :
    ∀ fuel i d buf j0 e, (d = true → 1 ≤ j0) →
      (expandLoop tmpl env fuel i d buf j0).2 = some e →
      ∃ j w, 1 ≤ j ∧ j < tmpl.length ∧ tmpl[j]? = some '{' ∧
        varInfo (tmpl.drop (j + 1)) = .error (w, e.err) ∧
        e.position = w + 2 ∧
        e.value = (tmpl.drop (j - 1)).take (min (j + w + 5) tmpl.length - (j - 1)) := by
  intro fuel
  induction fuel with
  | zero =>
    intro i d buf j0 e _ h
    simp [expandLoop] at h
  | succ fuel ih =>
    intro i d buf j0 e hd h
    by_cases hj : j0 < tmpl.length
    · by_cases h1 : tmpl[j0] = '$'
      · cases d
        · rw [expandLoop_step_dollar1 tmpl env fuel i buf j0 hj h1] at h
          exact ih i true buf (j0 + 1) e (fun _ => by omega) h
        · rw [expandLoop_step_dollar2 tmpl env fuel i buf j0 hj h1] at h
          exact ih (j0 + 1) false _ (j0 + 1) e (fun h2 => by cases h2) h
      · by_cases h2 : tmpl[j0] = '{'
        · cases d
          · rw [expandLoop_step_openBrace tmpl env fuel i buf j0 hj h2] at h
            exact ih i false buf (j0 + 1) e (fun h3 => by cases h3) h
          · have hj1 : 1 ≤ j0 := hd rfl
            rcases hvi : varInfo (tmpl.drop (j0 + 1)) with ⟨w, ek⟩ | ⟨name, dv, w⟩
            · rw [expandLoop_step_refErr tmpl env fuel i buf j0 w ek hj h2 hvi] at h
              have he := Option.some.inj h
              refine ⟨j0, w, hj1, hj, ?_, ?_, ?_, ?_⟩
              · rw [List.getElem?_eq_getElem hj, h2]
              · rw [hvi, ← he]
              · rw [← he]
              · rw [← he]
            · cases hlk : env.lookupEnv name with
              | none =>
                rw [expandLoop_step_refMiss tmpl env fuel i buf j0 w name dv hj h2 hvi hlk] at h
                exact ih (j0 + w + 1) false _ (j0 + w + 1) e (fun h3 => by cases h3) h
              | some val =>
                rw [expandLoop_step_refHit tmpl env fuel i buf j0 w name dv val hj h2 hvi hlk] at h
                exact ih (j0 + w + 1) false _ (j0 + w + 1) e (fun h3 => by cases h3) h
        · rw [expandLoop_step_other tmpl env fuel i d buf j0 hj h1 h2] at h
          exact ih i false buf (j0 + 1) e (fun h3 => by cases h3) h
    · rw [expandLoop_end tmpl env (fuel + 1) i d buf j0 (by omega)] at h
      simp at h

/-- Claim C4: the unterminated template dollar brace a s d f fails with
position 6 and the whole template as the error value; in general every
syntax error Expand returns carries position w plus two, where w is the
consumed width reported by the failing varInfo at the opening brace, and
its value is the template slice from the dollar sign through the preview
end bounded by the template length. -/
theorem claim_C4 :
    (∀ env buf, Expand ['$', '{', 'a', 's', 'd', 'f'] env buf =
      (none, some ⟨6, ['$', '{', 'a', 's', 'd', 'f'], .unterminated⟩)) ∧
    (∀ tmpl env buf e, (Expand tmpl env buf).2 = some e →
      ∃ j w, 1 ≤ j ∧ j < tmpl.length ∧ tmpl[j]? = some '{' ∧
        varInfo (tmpl.drop (j + 1)) = .error (w, e.err) ∧
        e.position = w + 2 ∧
        e.value = (tmpl.drop (j - 1)).take (min (j + w + 5) tmpl.length - (j - 1))) := by
  refine ⟨fun env buf => rfl, fun tmpl env buf e h => ?_⟩
  exact expandLoop_err_spec tmpl env (tmpl.length + 1) 0 false buf 0 e (fun h2 => by cases h2) h

/-- Witness for claim C4 on the unterminated template: the failing brace is
at index 1, the failing width is 4, position is 6 and the value is the
whole template. -/
theorem claim_C4_witness :
    ∃ j w, 1 ≤ j ∧ j < (['$', '{', 'a', 's', 'd', 'f'] : List Char).length ∧
      (['$', '{', 'a', 's', 'd', 'f'] : List Char)[j]? = some '{' ∧
      varInfo ((['$', '{', 'a', 's', 'd', 'f'] : List Char).drop (j + 1)) =
        .error (w, (⟨6, ['$', '{', 'a', 's', 'd', 'f'],
          ErrKind.unterminated⟩ : InvalidSyntaxErr).err) ∧
      (⟨6, ['$', '{', 'a', 's', 'd', 'f'],
        ErrKind.unterminated⟩ : InvalidSyntaxErr).position = w + 2 ∧
      (⟨6, ['$', '{', 'a', 's', 'd', 'f'],
        ErrKind.unterminated⟩ : InvalidSyntaxErr).value =
        ((['$', '{', 'a', 's', 'd', 'f'] : List Char).drop (j - 1)).take
          (min (j + w + 5) (['$', '{', 'a', 's', 'd', 'f'] : List Char).length - (j - 1)) :=
  claim_C4.2 ['$', '{', 'a', 's', 'd', 'f'] noEnv []
    ⟨6, ['$', '{', 'a', 's', 'd', 'f'], ErrKind.unterminated⟩ (by decide)

/-- Appending one more valid name character keeps a name well formed. -/
theorem checkName_push (xs : List Char) (c : Char)
    (h1 : checkName xs = true) (h2 : validNameChar c = true) :
    checkName (xs ++ [c]) = true := by
  cases xs with
  | nil => simp [checkName] at h1
  | cons x xs =>
    simp only [checkName, Bool.and_eq_true] at h1
    simp only [List.cons_append, checkName, List.all_append, Bool.and_eq_true]
    exact ⟨h1.1, h1.2, by simp [h2]⟩

/-- The suffix after dropping one more element of a list known to drop to a
cons is the tail of that cons. -/
theorem drop_succ_of_drop_cons (l : List Char) (i : Nat) (c : Char) (cs : List Char)
    (h : l.drop i = c :: cs) : l.drop (i + 1) = cs := by
  have h2 : (l.drop i).drop 1 = cs := by rw [h]; rfl
  rw [List.drop_drop] at h2
  simpa [Nat.add_comm] using h2

/-- An element exposed by drop is the element at that index. -/
theorem getElem?_of_drop_cons (l : List Char) (i : Nat) (c : Char) (cs : List Char)
    (h : l.drop i = c :: cs) : l[i]? = some c := by
  have h2 := List.getElem?_drop l i 0
  rw [h] at h2
  simpa using h2.symm

/-- If the prefix consumed so far is a well-formed name, whatever the name
loop returns is a well-formed name. -/
theorem readVarNameAux_checkName (full : List Char) :
    ∀ (rest : List Char) (i : Nat) (nm : List Char) (n : Nat),
      full.drop i = rest → checkName (full.take i) = true →
      readVarNameAux full i rest = .ok (nm, n) → checkName nm = true := by
  intro rest
  induction rest with
  | nil =>
    intro i nm n _ _ h
    simp [readVarNameAux] at h
  | cons c cs ihr =>
    intro i nm n hdrop hck h
    rw [readVarNameAux] at h
    by_cases hdel : (c == '}' || c == '|') = true
    · rw [if_pos hdel] at h
      have hp := Except.ok.inj h
      rw [Prod.mk.injEq] at hp
      rw [← hp.1]
      exact hck
    · rw [if_neg hdel] at h
      by_cases hvc : validNameChar c = true
      · rw [if_neg (by simp [hvc])] at h
        have htake : full.take (i + 1) = full.take i ++ [c] := by
          rw [List.take_succ, getElem?_of_drop_cons full i c cs hdrop]
          rfl
        refine ihr (i + 1) nm n (drop_succ_of_drop_cons full i c cs hdrop) ?_ h
        rw [htake]
        exact checkName_push (full.take i) c hck hvc
      · rw [if_pos (by simp [hvc])] at h
        simp at h

/-- Every name successfully returned by readVarName is well formed: it
starts with a letter or underscore and continues with letters, digits or
underscores. -/
theorem readVarName_checkName (data nm : List Char) (n : Nat)
    (h : readVarName data = .ok (nm, n)) : checkName nm = true := by
  cases data with
  | nil => simp [readVarName] at h
  | cons c cs =>
    rw [readVarName] at h
    by_cases hdel : (c == '}' || c == '|') = true
    · rw [if_pos hdel] at h
      simp at h
    · rw [if_neg hdel] at h
      by_cases hfc : validNameFirstChar c = true
      · rw [if_neg (by simp [hfc])] at h
        refine readVarNameAux_checkName (c :: cs) cs 1 nm n rfl ?_ h
        simp [checkName, hfc]
      · rw [if_pos (by simp [hfc])] at h
        simp at h

/-- The name component of a successful varInfo is the name readVarName
returned. -/
theorem varInfo_name (data nm dv : List Char) (n : Nat)
    (h : varInfo data = .ok (nm, dv, n)) : ∃ k, readVarName data = .ok (nm, k) := by
  rw [varInfo] at h
  rcases hrv : readVarName data with ⟨w, ek⟩ | ⟨name, nameLen⟩ <;> rw [hrv] at h
  · simp at h
  · refine ⟨nameLen, ?_⟩
    by_cases hgd : (data[nameLen - 1]?).getD ' ' = '}'
    · simp [hgd] at h
      rw [h.1]
    · simp [hgd] at h
      rcases hrd : readDefaultValue (data.drop nameLen) with ⟨w2, ek2⟩ | ⟨dvv, vl⟩ <;>
        rw [hrd] at h <;> simp at h
      rw [h.1]

/-- Two providers that agree on every well-formed name make Expand produce
identical results: the loop only ever consults the provider on names that
readVarName accepted. -/
theorem expandLoop_env_eq (tmpl : List Char) (e1 e2 : Environment)
    (henv : ∀ nm, checkName nm = true → e1.lookupEnv nm = e2.lookupEnv nm) :
    ∀ fuel i d buf j, expandLoop tmpl e1 fuel i d buf j =
      expandLoop tmpl e2 fuel i d buf j := by
  intro fuel
  induction fuel with
  | zero => intro i d buf j; rfl
  | succ fuel ih =>
    intro i d buf j
    by_cases hj : j < tmpl.length
    · by_cases h1 : tmpl[j] = '$'
      · cases d
        · rw [expandLoop_step_dollar1 tmpl e1 fuel i buf j hj h1,
            expandLoop_step_dollar1 tmpl e2 fuel i buf j hj h1]
          exact ih i true buf (j + 1)
        · rw [expandLoop_step_dollar2 tmpl e1 fuel i buf j hj h1,
            expandLoop_step_dollar2 tmpl e2 fuel i buf j hj h1]
          exact ih (j + 1) false _ (j + 1)
      · by_cases h2 : tmpl[j] = '{'
        · cases d
          · rw [expandLoop_step_openBrace tmpl e1 fuel i buf j hj h2,
              expandLoop_step_openBrace tmpl e2 fuel i buf j hj h2]
            exact ih i false buf (j + 1)
          · rcases hvi : varInfo (tmpl.drop (j + 1)) with ⟨w, ek⟩ | ⟨name, dv, w⟩
            · rw [expandLoop_step_refErr tmpl e1 fuel i buf j w ek hj h2 hvi,
                expandLoop_step_refErr tmpl e2 fuel i buf j w ek hj h2 hvi]
            · have hck : checkName name = true := by
                obtain ⟨k, hrv⟩ := varInfo_name (tmpl.drop (j + 1)) name dv w hvi
                exact readVarName_checkName (tmpl.drop (j + 1)) name k hrv
              cases hlk : e1.lookupEnv name with
              | none =>
                have hlk2 : e2.lookupEnv name = none := by
                  rw [← henv name hck]
                  exact hlk
                rw [expandLoop_step_refMiss tmpl e1 fuel i buf j w name dv hj h2 hvi hlk,
                  expandLoop_step_refMiss tmpl e2 fuel i buf j w name dv hj h2 hvi hlk2]
                exact ih (j + w + 1) false _ (j + w + 1)
              | some val =>
                have hlk2 : e2.lookupEnv name = some val := by
                  rw [← henv name hck]
                  exact hlk
                rw [expandLoop_step_refHit tmpl e1 fuel i buf j w name dv val hj h2 hvi hlk,
                  expandLoop_step_refHit tmpl e2 fuel i buf j w name dv val hj h2 hvi hlk2]
                exact ih (j + w + 1) false _ (j + w + 1)
        · rw [expandLoop_step_other tmpl e1 fuel i d buf j hj h1 h2,
            expandLoop_step_other tmpl e2 fuel i d buf j hj h1 h2]
          exact ih i false buf (j + 1)
    · rw [expandLoop_end tmpl e1 (fuel + 1) i d buf j (by omega),
        expandLoop_end tmpl e2 (fuel + 1) i d buf j (by omega)]

/-- Claim C7: every variable name successfully returned by readVarName is
well formed per checkName, that is, it starts with an ASCII letter or
underscore and continues with ASCII letters, digits or underscores; hence
Expand only consults the provider on such names: providers agreeing on all
well-formed names are interchangeable. -/
theorem claim_C7 :
    (∀ data nm n, readVarName data = .ok (nm, n) → checkName nm = true) ∧
    (∀ tmpl e1 e2 buf, (∀ nm, checkName nm = true → e1.lookupEnv nm = e2.lookupEnv nm) →
      Expand tmpl e1 buf = Expand tmpl e2 buf) :=
  ⟨fun data nm n h => readVarName_checkName data nm n h,
   fun tmpl e1 e2 buf henv =>
     expandLoop_env_eq tmpl e1 e2 henv (tmpl.length + 1) 0 false buf 0⟩

/-- Witness for claim C7: the name underscore a 9, with leading underscore,
is accepted and well formed; a provider binding only the ill-formed empty
name is interchangeable with the empty provider. -/
theorem claim_C7_witness :
    checkName ['_', 'a', '9'] = true ∧
    Expand ['$', '{', 'a', '}'] noEnv [] =
      Expand ['$', '{', 'a', '}'] ⟨fun nm => if nm = [] then some ['v'] else none⟩ [] :=
  ⟨claim_C7.1 ['_', 'a', '9', '}'] ['_', 'a', '9'] 4 rfl,
   claim_C7.2 ['$', '{', 'a', '}'] noEnv ⟨fun nm => if nm = [] then some ['v'] else none⟩ []
     (fun nm hck => by
       cases nm with
       | nil => exact absurd hck (by decide)
       | cons c cs => rfl)⟩

/-- goSlice within bounds computes the usual drop-take slice. -/
theorem goSlice_eq (l : List Char) (a b : Nat) (h1 : a ≤ b) (h2 : b ≤ l.length) :
    goSlice l a b = some ((l.drop a).take (b - a)) := by
  rw [goSlice, if_pos ⟨h1, h2⟩]

/-- goSuffix within bounds computes drop. -/
theorem goSuffix_eq (l : List Char) (a : Nat) (h : a ≤ l.length) :
    goSuffix l a = some (l.drop a) := by
  rw [goSuffix, if_pos h]

/-- Bounds of a successful name-loop run: the consumed width lands on a
delimiter inside the input. -/
theorem readVarNameAux_bounds (full : List Char) :
    ∀ (rest : List Char) (i : Nat) (nm : List Char) (n : Nat),
      full.drop i = rest →
      readVarNameAux full i rest = .ok (nm, n) →
      i + 1 ≤ n ∧ n ≤ full.length ∧
        (full[n - 1]? = some '}' ∨ full[n - 1]? = some '|') := by
  intro rest
  induction rest with
  | nil =>
    intro i nm n _ h
    simp [readVarNameAux] at h
  | cons c cs ihr =>
    intro i nm n hdrop h
    have hi : i < full.length := by
      by_contra hq
      rw [List.drop_eq_nil_of_le (by omega)] at hdrop
      simp at hdrop
    rw [readVarNameAux] at h
    by_cases hdel : (c == '}' || c == '|') = true
    · rw [if_pos hdel] at h
      have hp := Except.ok.inj h
      rw [Prod.mk.injEq] at hp
      have hn : n = i + 1 := hp.2.symm
      subst hn
      refine ⟨by omega, by omega, ?_⟩
      have hgi : full[i + 1 - 1]? = some c := by
        rw [show i + 1 - 1 = i by omega]
        exact getElem?_of_drop_cons full i c cs hdrop
      rw [hgi]
      rw [Bool.or_eq_true] at hdel
      rcases hdel with h | h
      · left
        rw [beq_iff_eq.mp h]
      · right
        rw [beq_iff_eq.mp h]
    · rw [if_neg hdel] at h
      by_cases hvc : validNameChar c = true
      · rw [if_neg (by simp [hvc])] at h
        have := ihr (i + 1) nm n (drop_succ_of_drop_cons full i c cs hdrop) h
        exact ⟨by omega, this.2.1, this.2.2⟩
      · rw [if_pos (by simp [hvc])] at h
        simp at h

/-- Bounds of a successful readVarName: at least the name head and its
delimiter are consumed, the width stays inside the input, and the byte
before the width is the delimiter. -/
theorem readVarName_bounds (data nm : List Char) (n : Nat)
    (h : readVarName data = .ok (nm, n)) :
    2 ≤ n ∧ n ≤ data.length ∧
      (data[n - 1]? = some '}' ∨ data[n - 1]? = some '|') := by
  cases data with
  | nil => simp [readVarName] at h
  | cons c cs =>
    rw [readVarName] at h
    by_cases hdel : (c == '}' || c == '|') = true
    · rw [if_pos hdel] at h
      simp at h
    · rw [if_neg hdel] at h
      by_cases hfc : validNameFirstChar c = true
      · rw [if_neg (by simp [hfc])] at h
        have := readVarNameAux_bounds (c :: cs) cs 1 nm n rfl h
        exact ⟨by omega, this.2.1, this.2.2⟩
      · rw [if_pos (by simp [hfc])] at h
        simp at h

/-- A successful slow escape loop never consumes past the end of the
original input. -/
theorem readDefaultSlowLoop_bound (full : List Char) :
    ∀ (rest buf : List Char) (esc : Bool) (i : Nat) (v : List Char) (n : Nat),
      full.drop i = rest →
      readDefaultSlowLoop buf esc i rest = .ok (v, n) → n ≤ full.length := by
  intro rest
  induction rest with
  | nil =>
    intro buf esc i v n _ h
    simp [readDefaultSlowLoop] at h
  | cons c cs ihr =>
    intro buf esc i v n hdrop h
    have hi : i < full.length := by
      by_contra hq
      rw [List.drop_eq_nil_of_le (by omega)] at hdrop
      simp at hdrop
    have hdrop2 := drop_succ_of_drop_cons full i c cs hdrop
    rw [readDefaultSlowLoop] at h
    by_cases h1 : (c == '\\') = true
    · rw [if_pos h1] at h
      exact ihr _ (!esc) (i + 1) v n hdrop2 h
    · rw [if_neg h1] at h
      by_cases h2 : (c == '}' && !esc) = true
      · rw [if_pos h2] at h
        have hp := Except.ok.inj h
        rw [Prod.mk.injEq] at hp
        omega
      · rw [if_neg h2] at h
        by_cases h3 : (esc && c != '}') = true
        · rw [if_pos h3] at h
          simp at h
        · rw [if_neg h3] at h
          exact ihr _ false (i + 1) v n hdrop2 h

/-- A successful escape-free fast scan never consumes past the end of the
original input. -/
theorem readDefaultFastLoop_inl_bound (full : List Char) :
    ∀ (rest : List Char) (i : Nat) (v : List Char) (n : Nat),
      full.drop i = rest →
      readDefaultFastLoop full i rest = .ok (.inl (v, n)) → n ≤ full.length := by
  intro rest
  induction rest with
  | nil =>
    intro i v n _ h
    simp [readDefaultFastLoop] at h
  | cons c cs ihr =>
    intro i v n hdrop h
    have hi : i < full.length := by
      by_contra hq
      rw [List.drop_eq_nil_of_le (by omega)] at hdrop
      simp at hdrop
    have hdrop2 := drop_succ_of_drop_cons full i c cs hdrop
    rw [readDefaultFastLoop] at h
    by_cases h1 : (c == '\\') = true
    · rw [if_pos h1] at h
      simp at h
    · rw [if_neg h1] at h
      by_cases h2 : (c == '}') = true
      · rw [if_pos h2] at h
        have hp := Except.ok.inj h
        have hp2 := Sum.inl.inj hp
        rw [Prod.mk.injEq] at hp2
        omega
      · rw [if_neg h2] at h
        exact ihr (i + 1) v n hdrop2 h

/-- A successful readDefaultValue never consumes past the end of its
input. -/
theorem readDefaultValue_bound (data v : List Char) (n : Nat)
    (h : readDefaultValue data = .ok (v, n)) : n ≤ data.length := by
  rw [readDefaultValue] at h
  split at h
  · simp at h
  · rename_i r heq
    rcases r with ⟨v2, n2⟩
    have hp := Except.ok.inj h
    rw [Prod.mk.injEq] at hp
    have := readDefaultFastLoop_inl_bound data data 0 v2 n2 rfl heq
    omega
  · rename_i k heq
    exact readDefaultSlowLoop_bound data (data.drop k) (data.take k) false k v n rfl h

/-- A successful varInfo never consumes past the end of its input. -/
theorem varInfo_bound (data nm dv : List Char) (n : Nat)
    (h : varInfo data = .ok (nm, dv, n)) : n ≤ data.length := by
  rw [varInfo] at h
  split at h
  · simp at h
  · rename_i name nameLen heq
    have hb := readVarName_bounds data name nameLen heq
    split at h
    · have hp := Except.ok.inj h
      rw [Prod.mk.injEq, Prod.mk.injEq] at hp
      omega
    · split at h
      · simp at h
      · rename_i dvv vl heq2
        have hv := readDefaultValue_bound (data.drop nameLen) dvv vl heq2
        rw [List.length_drop] at hv
        have hp := Except.ok.inj h
        rw [Prod.mk.injEq, Prod.mk.injEq] at hp
        omega

/-- The delimiter index the source reads in varInfo is always in range
after a successful readVarName, so the checked varInfo never fails and
agrees with varInfo on every input. -/
theorem varInfoChecked_eq (data : List Char) :
    varInfoChecked data = some (varInfo data) := by
  rw [varInfoChecked, varInfo]
  rcases hrv : readVarName data with ⟨w, ek⟩ | ⟨name, nameLen⟩
  · rfl
  · have hb := readVarName_bounds data name nameLen hrv
    have hlt : nameLen - 1 < data.length := by
      rcases hb.2.2 with h4 | h4 <;>
        (rw [List.getElem?_eq_some] at h4; exact h4.1)
    have hgi : goIndex data (nameLen - 1) = some data[nameLen - 1] := by
      rw [goIndex, dif_pos hlt]
    have hgd : data.getD (nameLen - 1) ' ' = data[nameLen - 1] :=
      List.getD_eq_getElem data ' ' hlt
    simp only [hgi, hgd]
    by_cases hc : (data[nameLen - 1] == '}') = true
    · rw [if_pos hc, if_pos hc]
    · rw [if_neg hc, if_neg hc]
      rcases hrd : readDefaultValue (data.drop nameLen) with ⟨w2, ek2⟩ | ⟨dvv, vl⟩ <;> rfl

/-- Checked one-step: first dollar sign. -/
theorem expandLoopChecked_step_dollar1 (tmpl : List Char) (env : Environment)
    (fuel i : Nat) (buf : List Char) (j : Nat)
    (h : j < tmpl.length) (hc : tmpl[j] = '$') :
    expandLoopChecked tmpl env (fuel + 1) i false buf j =
      expandLoopChecked tmpl env fuel i true buf (j + 1) := by
  rw [expandLoopChecked, dif_pos h]
  simp [hc]

/-- Checked one-step: second dollar sign flushes the checked literal run. -/
theorem expandLoopChecked_step_dollar2 (tmpl : List Char) (env : Environment)
    (fuel i : Nat) (buf : List Char) (j : Nat)
    (h : j < tmpl.length) (hc : tmpl[j] = '$') (hij : i ≤ j) :
    expandLoopChecked tmpl env (fuel + 1) i true buf j =
      expandLoopChecked tmpl env fuel (j + 1) false
        (buf ++ (tmpl.drop i).take (j - i)) (j + 1) := by
  rw [expandLoopChecked, dif_pos h]
  simp [hc, goSlice_eq tmpl i j hij (by omega)]

/-- Checked one-step: literal opening brace. -/
theorem expandLoopChecked_step_openBrace (tmpl : List Char) (env : Environment)
    (fuel i : Nat) (buf : List Char) (j : Nat)
    (h : j < tmpl.length) (hc : tmpl[j] = '{') :
    expandLoopChecked tmpl env (fuel + 1) i false buf j =
      expandLoopChecked tmpl env fuel i false buf (j + 1) := by
  rw [expandLoopChecked, dif_pos h]
  simp [hc]

/-- Checked one-step: failing reference, all four checked accesses are in
range. -/
theorem expandLoopChecked_step_refErr (tmpl : List Char) (env : Environment)
    (fuel i : Nat) (buf : List Char) (j w : Nat) (ek : ErrKind)
    (h : j < tmpl.length) (hc : tmpl[j] = '{') (hij : i ≤ j - 1)
    (hvi : varInfo (tmpl.drop (j + 1)) = .error (w, ek)) :
    expandLoopChecked tmpl env (fuel + 1) i true buf j =
      some (none, some ⟨w + 2,
        (tmpl.drop (j - 1)).take (min (j + w + 5) tmpl.length - (j - 1)), ek⟩) := by
  rw [expandLoopChecked, dif_pos h]
  simp [hc, goSlice_eq tmpl i (j - 1) hij (by omega),
    goSuffix_eq tmpl (j + 1) (by omega),
    varInfoChecked_eq, hvi,
    goSlice_eq tmpl (j - 1) (min (j + w + 5) tmpl.length) (by omega) (by omega)]

/-- Checked one-step: resolved reference. -/
theorem expandLoopChecked_step_refHit (tmpl : List Char) (env : Environment)
    (fuel i : Nat) (buf : List Char) (j w : Nat) (name dv val : List Char)
    (h : j < tmpl.length) (hc : tmpl[j] = '{') (hij : i ≤ j - 1)
    (hvi : varInfo (tmpl.drop (j + 1)) = .ok (name, dv, w))
    (hlk : env.lookupEnv name = some val) :
    expandLoopChecked tmpl env (fuel + 1) i true buf j =
      expandLoopChecked tmpl env fuel (j + w + 1) false
        (buf ++ (tmpl.drop i).take (j - 1 - i) ++ val) (j + w + 1) := by
  rw [expandLoopChecked, dif_pos h]
  simp [hc, goSlice_eq tmpl i (j - 1) hij (by omega),
    goSuffix_eq tmpl (j + 1) (by omega),
    varInfoChecked_eq, hvi, hlk]

/-- Checked one-step: unresolved reference falls back to the default. -/
theorem expandLoopChecked_step_refMiss (tmpl : List Char) (env : Environment)
    (fuel i : Nat) (buf : List Char) (j w : Nat) (name dv : List Char)
    (h : j < tmpl.length) (hc : tmpl[j] = '{') (hij : i ≤ j - 1)
    (hvi : varInfo (tmpl.drop (j + 1)) = .ok (name, dv, w))
    (hlk : env.lookupEnv name = none) :
    expandLoopChecked tmpl env (fuel + 1) i true buf j =
      expandLoopChecked tmpl env fuel (j + w + 1) false
        (buf ++ (tmpl.drop i).take (j - 1 - i) ++ dv) (j + w + 1) := by
  rw [expandLoopChecked, dif_pos h]
  simp [hc, goSlice_eq tmpl i (j - 1) hij (by omega),
    goSuffix_eq tmpl (j + 1) (by omega),
    varInfoChecked_eq, hvi, hlk]

/-- Checked one-step: any other character. -/
theorem expandLoopChecked_step_other (tmpl : List Char) (env : Environment)
    (fuel i : Nat) (d : Bool) (buf : List Char) (j : Nat)
    (h : j < tmpl.length) (hc1 : tmpl[j] ≠ '$') (hc2 : tmpl[j] ≠ '{') :
    expandLoopChecked tmpl env (fuel + 1) i d buf j =
      expandLoopChecked tmpl env fuel i false buf (j + 1) := by
  rw [expandLoopChecked, dif_pos h]
  simp [hc1, hc2]

/-- Checked loop exit: the final flush of the literal tail is in range. -/
theorem expandLoopChecked_end (tmpl : List Char) (env : Environment)
    (fuel i : Nat) (d : Bool) (buf : List Char) (j : Nat)
    (hj : tmpl.length ≤ j) (hil : i ≤ tmpl.length) :
    expandLoopChecked tmpl env fuel i d buf j =
      some (some (buf ++ tmpl.drop i), none) := by
  cases fuel with
  | zero =>
    show (match goSuffix tmpl i with
      | none => none
      | some t => some (some (buf ++ t), none)) = _
    rw [goSuffix_eq tmpl i hil]
  | succ fuel =>
    rw [expandLoopChecked, dif_neg (by omega)]
    rw [goSuffix_eq tmpl i hil]

/-- From every reachable state of the scan, the checked loop succeeds and
agrees with the unchecked loop: no slice or index of the source is ever out
of range.  The hypotheses are the reachable-state invariants: the literal
run start never passes the scan position or the template end, and a pending
dollar sign means the scan position is past the dollar sign and the run
start is at or before it. -/
theorem expandLoopChecked_eq (tmpl : List Char) (env : Environment) :
    ∀ fuel i d buf j, i ≤ j → i ≤ tmpl.length → (d = true → 1 ≤ j ∧ i + 1 ≤ j) →
      expandLoopChecked tmpl env fuel i d buf j =
        some (expandLoop tmpl env fuel i d buf j) := by
  intro fuel
  induction fuel with
  | zero =>
    intro i d buf j _ hil _
    rw [expandLoop]
    show (match goSuffix tmpl i with
      | none => none
      | some t => some (some (buf ++ t), none)) = _
    rw [goSuffix_eq tmpl i hil]
  | succ fuel ih =>
    intro i d buf j hij hil hd
    by_cases hj : j < tmpl.length
    · by_cases h1 : tmpl[j] = '$'
      · cases d
        · rw [expandLoop_step_dollar1 tmpl env fuel i buf j hj h1,
            expandLoopChecked_step_dollar1 tmpl env fuel i buf j hj h1]
          exact ih i true buf (j + 1) (by omega) hil (fun _ => by omega)
        · rw [expandLoop_step_dollar2 tmpl env fuel i buf j hj h1,
            expandLoopChecked_step_dollar2 tmpl env fuel i buf j hj h1 hij]
          exact ih (j + 1) false _ (j + 1) (by omega) (by omega) (fun h2 => by cases h2)
      · by_cases h2 : tmpl[j] = '{'
        · cases d
          · rw [expandLoop_step_openBrace tmpl env fuel i buf j hj h2,
              expandLoopChecked_step_openBrace tmpl env fuel i buf j hj h2]
            exact ih i false buf (j + 1) (by omega) hil (fun h3 => by cases h3)
          · have hinv := hd rfl
            rcases hvi : varInfo (tmpl.drop (j + 1)) with ⟨w, ek⟩ | ⟨name, dv, w⟩
            · rw [expandLoop_step_refErr tmpl env fuel i buf j w ek hj h2 hvi,
                expandLoopChecked_step_refErr tmpl env fuel i buf j w ek hj h2
                  (by omega) hvi]
            · have hw : w ≤ tmpl.length - (j + 1) := by
                have := varInfo_bound (tmpl.drop (j + 1)) name dv w hvi
                rw [List.length_drop] at this
                exact this
              cases hlk : env.lookupEnv name with
              | none =>
                rw [expandLoop_step_refMiss tmpl env fuel i buf j w name dv hj h2 hvi hlk,
                  expandLoopChecked_step_refMiss tmpl env fuel i buf j w name dv hj h2
                    (by omega) hvi hlk]
                exact ih (j + w + 1) false _ (j + w + 1) (by omega) (by omega)
                  (fun h3 => by cases h3)
              | some val =>
                rw [expandLoop_step_refHit tmpl env fuel i buf j w name dv val hj h2 hvi hlk,
                  expandLoopChecked_step_refHit tmpl env fuel i buf j w name dv val hj h2
                    (by omega) hvi hlk]
                exact ih (j + w + 1) false _ (j + w + 1) (by omega) (by omega)
                  (fun h3 => by cases h3)
        · rw [expandLoop_step_other tmpl env fuel i d buf j hj h1 h2,
            expandLoopChecked_step_other tmpl env fuel i d buf j hj h1 h2]
          exact ih i false buf (j + 1) (by omega) hil (fun h3 => by cases h3)
    · rw [expandLoop_end tmpl env (fuel + 1) i d buf j (by omega)]
      exact expandLoopChecked_end tmpl env (fuel + 1) i d buf j (by omega) hil

/-- Claim C10: Expand and varInfo are total and never take a slice or index
out of range: on every input the bounds-checked variants, which return none
exactly where the Go originals would panic, succeed and agree with the
unchecked embeddings.  readVarName and readDefaultValue are total
structurally: their loops only inspect the guarded head of the remaining
input. -/
theorem claim_C10 :
    (∀ tmpl env buf, ExpandChecked tmpl env buf = some (Expand tmpl env buf)) ∧
    (∀ data, varInfoChecked data = some (varInfo data)) :=
  ⟨fun tmpl env buf =>
    expandLoopChecked_eq tmpl env (tmpl.length + 1) 0 false buf 0 (by omega) (by omega)
      (fun h => by cases h),
   varInfoChecked_eq⟩
